import Mathlib

/-!
Shallow embedding of `rename-index-files` (a TypeScript tool that renames
`index.*` files to their parent directory's name and rewrites import
specifiers pointing at them).  Two source variants exist in the repository:
`src/rename-index-files.ts` (resolution-based referrer rewriting) and
`src/unnamed/part_000` (specifier-text-suffix rewriting over the whole
project).  Strings are modelled by Lean `String` (a list of characters,
matching JS strings over the basic plane); Node `path` helpers and the JS
string methods used by the tool are embedded below as executable functions
over `String.data`.
-/

namespace RenameIndexFiles

/-- Embeds `normalizePath` (both sources, lines 13–15): replace every
backslash with a forward slash, as `p.replace(/\\/g, '/')` does. -/
def normalizePath (p : String) : String :=
  ⟨p.data.map (fun c => if c = '\\' then '/' else c)⟩

/-- Splits a list at the LAST occurrence of `c`: returns the part before
and the part after that occurrence, or `none` when `c` does not occur. -/
def splitLast (c : Char) : List Char → Option (List Char × List Char)
  | [] => none
  | a :: l =>
    match splitLast c l with
    | some (x, y) => some (a :: x, y)
    | none => if a = c then some ([], l) else none

/-- Embeds Node `path.basename` for forward-slash paths without a trailing
slash (the shape `ts-morph`'s `getFilePath()` produces): the part after the
last `/`, or the whole string when there is no `/`. -/
def basename (p : String) : String :=
  match splitLast '/' p.data with
  | some (_, b) => ⟨b⟩
  | none => p

/-- Embeds Node `path.dirname` for forward-slash paths without a trailing
slash: the part before the last `/` (`"/"` when the only `/` is leading,
`"."` when there is none). -/
def dirname (p : String) : String :=
  match splitLast '/' p.data with
  | some ([], _) => "/"
  | some (a, _) => ⟨a⟩
  | none => "."

/-- Embeds Node `path.join dir name` for a name free of `/` and of `.`/`..`
segments: concatenation with a single separating slash. -/
def posixJoin (dir name : String) : String :=
  if dir = "" then name
  else if dir.data.getLast? = some '/' then dir ++ name
  else dir ++ "/" ++ name

/-- Embeds JS `s.includes(sub)`: substring containment. -/
def strContains (s sub : String) : Bool :=
  decide (sub.data <:+: s.data)

/-- Embeds JS `s.startsWith(pre)`. -/
def strStartsWith (s pre : String) : Bool :=
  pre.data.isPrefixOf s.data

/-- Embeds JS `s.endsWith(suf)`. -/
def strEndsWith (s suf : String) : Bool :=
  suf.data.isSuffixOf s.data

/-- Embeds JS `s.substring(0, n)` for `n ≤ s.length`. -/
def strTake (s : String) (n : Nat) : String :=
  ⟨s.data.take n⟩

/-- Embeds JS `s.length` (code points; identical to UTF-16 units on the
basic plane, which covers every string the tool manipulates). -/
def strLength (s : String) : Nat :=
  s.data.length

/-! ### Basic facts about `splitLast` -/

theorem splitLast_eq_none {c : Char} {l : List Char}
    (h : splitLast c l = none) : c ∉ l := by
  induction l with
  | nil => simp
  | cons a l ih =>
    simp only [splitLast] at h
    cases hsl : splitLast c l with
    | some p => rw [hsl] at h; cases h
    | none =>
      rw [hsl] at h
      by_cases hac : a = c
      · simp [hac] at h
      · simp only [hac, if_false] at h
        intro hm
        rcases List.mem_cons.mp hm with h1 | h2
        · exact hac h1.symm
        · exact ih hsl h2

theorem splitLast_of_not_mem {c : Char} {l : List Char}
    (h : c ∉ l) : splitLast c l = none := by
  induction l with
  | nil => rfl
  | cons a l ih =>
    have ha : a ≠ c := fun hh => h (hh ▸ List.mem_cons_self a l)
    have hl : c ∉ l := fun hh => h (List.mem_cons_of_mem a hh)
    simp only [splitLast, ih hl, ha, if_false]

theorem splitLast_eq_some {c : Char} {l a b : List Char}
    (h : splitLast c l = some (a, b)) : l = a ++ c :: b ∧ c ∉ b := by
  induction l generalizing a b with
  | nil => cases h
  | cons x l ih =>
    simp only [splitLast] at h
    cases hsl : splitLast c l with
    | some p =>
      rw [hsl] at h
      obtain ⟨x', y'⟩ := p
      simp only [Option.some.injEq, Prod.mk.injEq] at h
      obtain ⟨ha, hb⟩ := h
      obtain ⟨hl, hnb⟩ := ih hsl
      subst ha hb
      exact ⟨by rw [hl]; rfl, hnb⟩
    | none =>
      rw [hsl] at h
      by_cases hxc : x = c
      · simp only [hxc, if_true, Option.some.injEq, Prod.mk.injEq] at h
        obtain ⟨ha, hb⟩ := h
        subst ha hb
        exact ⟨by rw [hxc]; rfl, splitLast_eq_none hsl⟩
      · simp [hxc] at h

theorem splitLast_append {c : Char} (a : List Char) {b : List Char}
    (hb : c ∉ b) : splitLast c (a ++ c :: b) = some (a, b) := by
  induction a with
  | nil => simp [splitLast, splitLast_of_not_mem hb]
  | cons x a ih => simp [splitLast, ih]

/-- Characters of `basename p` are characters of `p`. -/
theorem mem_basename_mem {x : Char} {p : String}
    (h : x ∈ (basename p).data) : x ∈ p.data := by
  unfold basename at h
  cases hsl : splitLast '/' p.data with
  | some q =>
    obtain ⟨a, b⟩ := q
    rw [hsl] at h
    obtain ⟨hl, _⟩ := splitLast_eq_some hsl
    rw [hl]
    exact List.mem_append.mpr (Or.inr (List.mem_cons_of_mem _ h))
  | none => rw [hsl] at h; exact h

/-- A base name never contains a slash. -/
theorem basename_no_slash (p : String) : '/' ∉ (basename p).data := by
  unfold basename
  cases hsl : splitLast '/' p.data with
  | some q =>
    obtain ⟨a, b⟩ := q
    exact (splitLast_eq_some hsl).2
  | none => exact splitLast_eq_none hsl

/-! ### Extension derivation (step 2 of the engine)

The tool classifies a selected file's base name against two anchored
regexes, in priority order (both sources, the `patternMatch`/`simpleMatch`
locals).  A JS regex match is embedded as an `Option` of the captured
groups. -/

/-- Embeds `fileName.match(/^index(\..+\.)([^.]+)$/)`: on success returns
the two captured groups.  Greedy matching forces the split between the
groups to sit at the last dot, since group 2 is dot-free and anchored at
the end. -/
def patternMatch (fileName : String) : Option (String × String) :=
  if strStartsWith fileName "index" then
    match (fileName.data.drop 5) with
    | '.' :: t =>
      match splitLast '.' t with
      | some (a, b) =>
        if a.isEmpty || b.isEmpty then none
        else some (⟨'.' :: (a ++ ['.'])⟩, ⟨b⟩)
      | none => none
    | _ => none
  else none

/-- Embeds `fileName.match(/^index(\.[^.]+)$/)`: on success returns the
single captured group. -/
def simpleMatch (fileName : String) : Option String :=
  if strStartsWith fileName "index" then
    match (fileName.data.drop 5) with
    | '.' :: t =>
      if t.isEmpty || t.contains '.' then none
      else some ⟨'.' :: t⟩
    | _ => none
  else none

/-- Embeds the `extension` computation (rename-index-files.ts lines 87–98):
pattern files keep their full dotted suffix, simple files keep their single
extension, and anything else falls back to `.tsx`. -/
def deriveExtension (fileName : String) : String :=
  match patternMatch fileName with
  | some (g1, g2) => g1 ++ g2
  | none =>
    match simpleMatch fileName with
    | some e => e
    | none => ".tsx"

/-- Embeds `newFilePath` (line 100): the original containing directory
joined with `parentName + extension`. -/
def renameTarget (filePath : String) : String :=
  posixJoin (dirname filePath) (basename (dirname filePath) ++ deriveExtension (basename filePath))

/-- Embeds `/^index\.(ts|tsx|js|jsx)$/.test(fileName)` (line 107). -/
def isStandardIndexFile (fileName : String) : Bool :=
  fileName = "index.ts" || fileName = "index.tsx" || fileName = "index.js" || fileName = "index.jsx"

/-! ### Data model: import declarations, source files, engine state -/

/-- An import declaration: its mutable specifier string, and the source
file (by absolute path) that the collaborator resolves it to, `none` when
it does not resolve to a project file.  Resolution is delegated to
`ts-morph` in the source, so it is part of the data here. -/
structure ImportDecl where
  specifier : String
  resolvesTo : Option String
deriving DecidableEq, Repr

/-- A loaded source file: its absolute path plus its import declarations. -/
structure SourceFile where
  path : String
  imports : List ImportDecl
deriving DecidableEq, Repr

/-- Engine state: the filesystem (the set of paths on disk) and the
in-memory project (the loaded source files with their imports). -/
structure EngineState where
  fsPaths : List String
  files : List SourceFile
deriving DecidableEq, Repr

/-! ### Step 4: referrer rewrite (resolution-based variant,
`src/rename-index-files.ts` lines 110–133) -/

/-- Embeds the specifier rewrite (lines 123–130): strip a trailing
`/index` (6 characters) and append `/parentName`, or else append
`/parentName` to the unchanged specifier. -/
def rewriteSpec (parentName spec : String) : String :=
  if strEndsWith spec "/index" then
    strTake spec (strLength spec - 6) ++ "/" ++ parentName
  else
    spec ++ "/" ++ parentName

/-- Embeds the per-import body (lines 115–131): read the resolved source
file's path (the string `"null"` when unresolved, as in line 116) and
rewrite the specifier only when it equals the renamed file's path. -/
def rewriteImport (filePath parentName : String) (imp : ImportDecl) : ImportDecl :=
  let sourceFilePath := imp.resolvesTo.getD "null"
  if sourceFilePath = filePath then
    { imp with specifier := rewriteSpec parentName imp.specifier }
  else imp

/-- Embeds the loop over `file.getReferencingSourceFiles()` (lines
110–133): every file whose path is in the collaborator-provided referrer
list has each of its imports run through `rewriteImport`. -/
def updateReferrers (files : List SourceFile) (referrers : List String)
    (filePath parentName : String) : List SourceFile :=
  files.map fun sf =>
    if referrers.contains sf.path then
      { sf with imports := sf.imports.map (rewriteImport filePath parentName) }
    else sf

/-- Embeds `fs.renameSync(filePath, newFilePath)` on the filesystem model:
the old path becomes the new path, all other paths are untouched. -/
def renameFs (fsPaths : List String) (oldPath newPath : String) : List String :=
  fsPaths.map fun q => if q = oldPath then newPath else q

/-- Embeds the body of `indexFiles.forEach` in `src/rename-index-files.ts`
(lines 79–135): derive the new name, rename on disk, and — only for
standard index files — rewrite the specifiers of resolving imports in the
referrer files. -/
def processIndexFile (st : EngineState) (referrers : List String)
    (filePath : String) : EngineState :=
  let dir := dirname filePath
  let parentName := basename dir
  let fileName := basename filePath
  let newFilePath := posixJoin dir (parentName ++ deriveExtension fileName)
  { fsPaths := renameFs st.fsPaths filePath newFilePath
    files :=
      if isStandardIndexFile fileName then
        updateReferrers st.files referrers filePath parentName
      else st.files }

/-! ### Step 4, text-suffix variant (`src/unnamed/part_000` lines 111–127) -/

/-- Embeds the per-import body of the variant (lines 113–125): rewrite any
specifier that textually ends with `/parentName/index` or `/parentName`,
with no resolution check. -/
def rewriteImportTextual (parentName : String) (imp : ImportDecl) : ImportDecl :=
  let spec := imp.specifier
  if strEndsWith spec ("/" ++ parentName ++ "/index") then
    { imp with specifier := strTake spec (strLength spec - 6) ++ "/" ++ parentName }
  else if strEndsWith spec ("/" ++ parentName) then
    { imp with specifier := spec ++ "/" ++ parentName }
  else imp

/-- Embeds the variant's loop over `project.getSourceFiles()` (lines
112–126): every import of every loaded file is run through the textual
rewrite. -/
def updateAllTextual (files : List SourceFile) (parentName : String) : List SourceFile :=
  files.map fun sf =>
    { sf with imports := sf.imports.map (rewriteImportTextual parentName) }

/-! ### Step 1: selection, and the top-level run -/

/-- Embeds the filter predicate of `indexFiles` (lines 70–76): the
normalized absolute path contains the normalized target folder path as a
substring, and the base name starts with `index.`. -/
def isIndexFileSelected (targetFolderPath : String) (sfPath : String) : Bool :=
  let filePath := normalizePath sfPath
  let fileName := basename filePath
  strContains filePath (normalizePath targetFolderPath) && strStartsWith fileName "index."

/-- Embeds `indexFiles` (lines 70–76): the loaded source-file paths that
pass the selection predicate. -/
def indexFiles (targetFolderPath : String) (allPaths : List String) : List String :=
  allPaths.filter (isIndexFileSelected targetFolderPath)

/-- Embeds the main pass (lines 63–135): select the index files among the
loaded source files, then process each in order.  The referrer lists are
supplied per file by the collaborator. -/
def engineRun (targetFolderPath : String) (referrersOf : String → List String)
    (st : EngineState) : EngineState :=
  (indexFiles targetFolderPath (st.files.map SourceFile.path)).foldl
    (fun acc fp => processIndexFile acc (referrersOf fp) fp) st

/-- Embeds the top level of the tool (lines 36–144): the two
`fs.existsSync` pre-flight checks with their exact error messages and
`process.exit(1)` (modelled as `Except.error`), then the engine run.  No
state is produced on the error paths — the checks run before any work. -/
def runTool (fsExists : String → Bool) (tsConfigPath targetFolderPath : String)
    (referrersOf : String → List String) (st : EngineState) : Except String EngineState :=
  if fsExists tsConfigPath = false then
    Except.error ("Error: tsconfig file not found at path: " ++ tsConfigPath)
  else if fsExists targetFolderPath = false then
    Except.error ("Error: target folder not found at path: " ++ targetFolderPath)
  else
    Except.ok (engineRun targetFolderPath referrersOf st)

/-! ### Helper lemmas about the string primitives -/

theorem strStartsWith_iff {s pre : String} :
    strStartsWith s pre = true ↔ pre.data <+: s.data := by
  simp [strStartsWith]

theorem strEndsWith_iff {s suf : String} :
    strEndsWith s suf = true ↔ suf.data <:+ s.data := by
  simp [strEndsWith]

/-- A prefix of `q ++ w` is a prefix of `q`, or all of `q` followed by a
prefix of `w`. -/
theorem prefix_append_cases {α : Type} {v q w : List α} (h : v <+: q ++ w) :
    v <+: q ∨ ∃ v', v = q ++ v' ∧ v' <+: w := by
  induction q generalizing v with
  | nil => exact Or.inr ⟨v, rfl, h⟩
  | cons a q ih =>
    cases v with
    | nil => exact Or.inl List.nil_prefix
    | cons b v =>
      rw [List.cons_append, List.cons_prefix_cons] at h
      obtain ⟨hb, hv⟩ := h
      rcases ih hv with h' | ⟨v', hv', hp⟩
      · exact Or.inl (by rw [hb]; exact List.cons_prefix_cons.mpr ⟨rfl, h'⟩)
      · exact Or.inr ⟨v', by rw [hb, hv', List.cons_append], hp⟩

/-- Inversion of a successful `patternMatch`. -/
theorem patternMatch_eq_some {fn : String} {g1 g2 : String}
    (h : patternMatch fn = some (g1, g2)) :
    strStartsWith fn "index" = true ∧
    ∃ a b, fn.data.drop 5 = '.' :: (a ++ '.' :: b) ∧ a ≠ [] ∧ b ≠ [] ∧ '.' ∉ b ∧
      g1 = ⟨'.' :: (a ++ ['.'])⟩ ∧ g2 = ⟨b⟩ := by
  unfold patternMatch at h
  split at h
  case isFalse => cases h
  case isTrue hs =>
    refine ⟨hs, ?_⟩
    split at h
    case h_2 => cases h
    case h_1 c t hd =>
      split at h
      case h_2 => cases h
      case h_1 a b hsl =>
        split at h
        case isTrue => cases h
        case isFalse hne =>
          simp only [Option.some.injEq, Prod.mk.injEq] at h
          obtain ⟨h1, h2⟩ := h
          obtain ⟨ht, hnb⟩ := splitLast_eq_some hsl
          rw [Bool.or_eq_true] at hne
          push_neg at hne
          obtain ⟨ha, hb⟩ := hne
          exact ⟨a, b, by rw [hd, ht], by simpa using ha, by simpa using hb,
            hnb, h1.symm, h2.symm⟩

/-- Inversion of a successful `simpleMatch`. -/
theorem simpleMatch_eq_some {fn : String} {e : String}
    (h : simpleMatch fn = some e) :
    strStartsWith fn "index" = true ∧
    ∃ t, fn.data.drop 5 = '.' :: t ∧ t ≠ [] ∧ '.' ∉ t ∧ e = ⟨'.' :: t⟩ := by
  unfold simpleMatch at h
  split at h
  case isFalse => cases h
  case isTrue hs =>
    refine ⟨hs, ?_⟩
    split at h
    case h_2 => cases h
    case h_1 c t hd =>
      split at h
      case isTrue => cases h
      case isFalse hne =>
        simp only [Option.some.injEq] at h
        rw [Bool.or_eq_true] at hne
        push_neg at hne
        obtain ⟨ht, hc⟩ := hne
        exact ⟨t, hd, by simpa using ht, by simpa using hc, h.symm⟩

/-- A derived extension always begins with a dot. -/
theorem deriveExtension_head (fn : String) :
    ∃ t, (deriveExtension fn).data = '.' :: t := by
  unfold deriveExtension
  cases hpm : patternMatch fn with
  | some q =>
    obtain ⟨g1, g2⟩ := q
    obtain ⟨-, a, b, -, -, -, -, hg1, hg2⟩ := patternMatch_eq_some hpm
    exact ⟨(a ++ ['.']) ++ g2.data, by rw [hg1, hg2, String.data_append]; simp⟩
  | none =>
    cases hsm : simpleMatch fn with
    | some e =>
      obtain ⟨-, t, -, -, -, he⟩ := simpleMatch_eq_some hsm
      exact ⟨t, by rw [he]⟩
    | none => exact ⟨['t', 's', 'x'], rfl⟩

/-- Characters of a derived extension come from the file name or from the
fallback alphabet `.tsx`. -/
theorem mem_deriveExtension {x : Char} {fn : String}
    (h : x ∈ (deriveExtension fn).data) :
    x ∈ fn.data ∨ x ∈ (".tsx" : String).data := by
  have hdot : ('.' : Char) ∈ (".tsx" : String).data := by decide
  unfold deriveExtension at h
  cases hpm : patternMatch fn with
  | some q =>
    obtain ⟨g1, g2⟩ := q
    rw [hpm] at h
    obtain ⟨-, a, b, hdrop, -, -, -, hg1, hg2⟩ := patternMatch_eq_some hpm
    rw [hg1, hg2, String.data_append] at h
    have hsub : ∀ y, y ∈ '.' :: (a ++ '.' :: b) → y ∈ fn.data := by
      intro y hy
      have : y ∈ fn.data.drop 5 := by rw [hdrop]; exact hy
      exact List.drop_subset _ _ this
    rcases List.mem_append.mp h with h1 | h2
    · rcases List.mem_cons.mp h1 with h1a | h1b
      · exact Or.inr (h1a ▸ hdot)
      · rcases List.mem_append.mp h1b with h1c | h1d
        · exact Or.inl (hsub x (List.mem_cons_of_mem _
            (List.mem_append.mpr (Or.inl h1c))))
        · have : x = '.' := by simpa using h1d
          exact Or.inr (this ▸ hdot)
    · exact Or.inl (hsub x (List.mem_cons_of_mem _
        (List.mem_append.mpr (Or.inr (List.mem_cons_of_mem _ h2)))))
  | none =>
    rw [hpm] at h
    cases hsm : simpleMatch fn with
    | some e =>
      rw [hsm] at h
      obtain ⟨-, t, hdrop, -, -, he⟩ := simpleMatch_eq_some hsm
      rw [he] at h
      rcases List.mem_cons.mp h with h1 | h2
      · exact Or.inr (h1 ▸ hdot)
      · refine Or.inl (List.drop_subset 5 _ ?_)
        rw [hdrop]
        exact List.mem_cons_of_mem _ h2
    | none => rw [hsm] at h; exact Or.inr h

/-- Characters of `dirname p` come from `p` or are a slash or a dot. -/
theorem mem_dirname {x : Char} {p : String} (h : x ∈ (dirname p).data) :
    x ∈ p.data ∨ x = '/' ∨ x = '.' := by
  unfold dirname at h
  cases hsl : splitLast '/' p.data with
  | some q =>
    obtain ⟨a, b⟩ := q
    rw [hsl] at h
    obtain ⟨hl, -⟩ := splitLast_eq_some hsl
    cases a with
    | nil => right; left; simpa using h
    | cons c a' =>
      left
      rw [hl]
      exact List.mem_append.mpr (Or.inl h)
  | none =>
    rw [hsl] at h
    right; right; simpa using h

/-- Characters of `renameTarget p` come from `p` or are a slash or come
from the fallback alphabet `.tsx`. -/
theorem mem_renameTarget {x : Char} {p : String}
    (h : x ∈ (renameTarget p).data) :
    x ∈ p.data ∨ x = '/' ∨ x ∈ (".tsx" : String).data := by
  have hdir : ∀ y : Char, y ∈ (dirname p).data →
      y ∈ p.data ∨ y = '/' ∨ y ∈ (".tsx" : String).data := by
    intro y hy
    rcases mem_dirname hy with h1 | h2 | h3
    · exact Or.inl h1
    · exact Or.inr (Or.inl h2)
    · exact Or.inr (Or.inr (by rw [h3]; decide))
  have hname : ∀ y : Char,
      y ∈ (basename (dirname p) ++ deriveExtension (basename p)).data →
      y ∈ p.data ∨ y = '/' ∨ y ∈ (".tsx" : String).data := by
    intro y hy
    rw [String.data_append] at hy
    rcases List.mem_append.mp hy with h1 | h2
    · exact hdir y (mem_basename_mem h1)
    · rcases mem_deriveExtension h2 with h3 | h4
      · exact Or.inl (mem_basename_mem h3)
      · exact Or.inr (Or.inr h4)
  unfold renameTarget posixJoin at h
  split at h
  · exact hname x h
  · split at h
    · rw [String.data_append] at h
      rcases List.mem_append.mp h with h1 | h2
      · exact hdir x h1
      · exact hname x h2
    · rw [String.data_append, String.data_append] at h
      rcases List.mem_append.mp h with h1 | h2
      · rcases List.mem_append.mp h1 with h1a | h1b
        · exact hdir x h1a
        · exact Or.inr (Or.inl (by simpa using h1b))
      · exact hname x h2

/-- A path without backslashes is already normalized. -/
theorem normalizePath_eq_self {p : String} (h : '\\' ∉ p.data) :
    normalizePath p = p := by
  apply String.ext
  show p.data.map _ = p.data
  rw [List.map_congr_left, List.map_id]
  intro a ha
  have : a ≠ '\\' := fun hh => h (hh ▸ ha)
  simp [this]

/-- Appending anything that starts with a dot to a name that neither is
`index` nor starts with `index.` cannot produce a name starting with
`index.`. -/
theorem not_startsWith_index_dot {pn ext : String} {t : List Char}
    (hext : ext.data = '.' :: t)
    (h4 : pn ≠ "index") (h5 : strStartsWith pn "index." = false) :
    strStartsWith (pn ++ ext) "index." = false := by
  rw [← Bool.not_eq_true, strStartsWith_iff]
  intro hpre
  rw [String.data_append, hext] at hpre
  rcases prefix_append_cases hpre with hc | ⟨v', hv, hvp⟩
  · rw [← strStartsWith_iff] at hc
    rw [hc] at h5; cases h5
  · cases v' with
    | nil =>
      rw [List.append_nil] at hv
      have hpn : pn = "index." := String.ext hv.symm
      rw [hpn] at h5
      exact absurd h5 (by decide)
    | cons c v'' =>
      obtain ⟨hc', -⟩ := List.cons_prefix_cons.mp hvp
      have hdata : ("index." : String).data = ['i','n','d','e','x','.'] := rfl
      rw [hdata, hc'] at hv
      obtain ⟨q⟩ := pn
      cases q with
      | nil => simp at hv
      | cons c1 q =>
        cases q with
        | nil => simp at hv
        | cons c2 q =>
          cases q with
          | nil => simp at hv
          | cons c3 q =>
            cases q with
            | nil => simp at hv
            | cons c4 q =>
              cases q with
              | nil => simp at hv
              | cons c5 q =>
                cases q with
                | cons c6 q => simp at hv
                | nil =>
                  simp only [List.cons_append, List.nil_append,
                    List.cons.injEq] at hv
                  obtain ⟨e1, e2, e3, e4, e5, -⟩ := hv
                  rw [← e1, ← e2, ← e3, ← e4, ← e5] at h4
                  exact h4 rfl

/-- Appending `/pn` to anything, for `pn` slash-free and different from
`index`, cannot produce a string ending with `/index`. -/
theorem not_endsWith_slash_index {s pn : String}
    (hpn : '/' ∉ pn.data) (hne : pn ≠ "index") :
    strEndsWith (s ++ "/" ++ pn) "/index" = false := by
  rw [← Bool.not_eq_true, strEndsWith_iff]
  intro hsuf
  rw [String.data_append, String.data_append, ← List.reverse_prefix,
    List.reverse_append, List.reverse_append] at hsuf
  have hdata : (("/index" : String).data).reverse = ['x','e','d','n','i','/'] := rfl
  have hslash : ("/" : String).data.reverse = ['/'] := rfl
  rw [hdata, hslash] at hsuf
  obtain ⟨q, hq⟩ : ∃ q, pn.data.reverse = q := ⟨_, rfl⟩
  rw [hq] at hsuf
  have hq' : '/' ∉ q := by
    rw [← hq, List.mem_reverse]; exact hpn
  rcases prefix_append_cases hsuf with hc | ⟨v', hv, hvp⟩
  · exact hq' (hc.subset (by decide))
  · cases v' with
    | nil =>
      rw [List.append_nil] at hv
      exact hq' (hv ▸ (by decide : ('/' : Char) ∈ ['x','e','d','n','i','/']))
    | cons c v'' =>
      have hc' : c = '/' := by
        have := List.cons_prefix_cons.mp (by simpa using hvp)
        exact this.1
      rw [hc'] at hv
      cases q with
      | nil => simp at hv
      | cons c1 q =>
        cases q with
        | nil => simp at hv
        | cons c2 q =>
          cases q with
          | nil => simp at hv
          | cons c3 q =>
            cases q with
            | nil => simp at hv
            | cons c4 q =>
              cases q with
              | nil => simp at hv
              | cons c5 q =>
                cases q with
                | cons c6 q => simp at hv
                | nil =>
                  simp only [List.cons_append, List.nil_append,
                    List.cons.injEq] at hv
                  obtain ⟨e1, e2, e3, e4, e5, -⟩ := hv
                  apply hne
                  apply String.ext
                  have h2 := congrArg List.reverse hq
                  rw [List.reverse_reverse, ← e1, ← e2, ← e3, ← e4, ← e5] at h2
                  exact h2

/-- The renamed path has no slash in its final component. -/
theorem newBase_no_slash (p : String) :
    '/' ∉ (basename (dirname p) ++ deriveExtension (basename p)).data := by
  intro h
  rw [String.data_append] at h
  rcases List.mem_append.mp h with h1 | h2
  · exact basename_no_slash (dirname p) h1
  · rcases mem_deriveExtension h2 with h3 | h4
    · exact basename_no_slash p h3
    · exact absurd h4 (by decide)

/-- Structure of `renameTarget`: for an absolute path whose directory part
does not end in a stray slash, the renamed path sits in the same directory
and its base name is the parent name followed by the derived extension. -/
theorem renameTarget_split (p : String)
    (h1 : strStartsWith p "/" = true)
    (h2 : dirname p = "/" ∨ (dirname p).data.getLast? ≠ some '/') :
    basename (renameTarget p)
      = basename (dirname p) ++ deriveExtension (basename p) ∧
    dirname (renameTarget p) = dirname p := by
  have hmem : ('/' : Char) ∈ p.data := by
    have := strStartsWith_iff.mp h1
    exact this.subset (by decide)
  have hsl : splitLast '/' p.data ≠ none := fun hn => splitLast_eq_none hn hmem
  obtain ⟨⟨a, b⟩, hsome⟩ : ∃ q, splitLast '/' p.data = some q := by
    cases hq : splitLast '/' p.data with
    | none => exact absurd hq hsl
    | some q => exact ⟨q, rfl⟩
  set nb := basename (dirname p) ++ deriveExtension (basename p) with hnb
  have hnbs : '/' ∉ nb.data := newBase_no_slash p
  by_cases hroot : dirname p = "/"
  · have hjoin : renameTarget p = "/" ++ nb := by
      unfold renameTarget posixJoin
      rw [← hnb, hroot]
      rw [if_neg (by decide : ¬("/" : String) = ""),
        if_pos (by decide : ("/" : String).data.getLast? = some '/')]
    have hdata : (renameTarget p).data = [] ++ '/' :: nb.data := by
      rw [hjoin, String.data_append]; rfl
    have hsplit : splitLast '/' (renameTarget p).data = some ([], nb.data) := by
      rw [hdata]; exact splitLast_append [] hnbs
    constructor
    · unfold basename; rw [hsplit]
    · have hdr : dirname (renameTarget p) = "/" := by
        unfold dirname; rw [hsplit]
      rw [hdr, hroot]
  · have hlast : (dirname p).data.getLast? ≠ some '/' := h2.resolve_left hroot
    have hdirn : ∃ c a', (dirname p).data = c :: a' := by
      cases a with
      | nil =>
        exfalso
        apply hroot
        unfold dirname
        rw [hsome]
      | cons c a' =>
        refine ⟨c, a', ?_⟩
        unfold dirname
        rw [hsome]
    have hne : dirname p ≠ "" := by
      obtain ⟨c, a', hda⟩ := hdirn
      intro hh
      rw [hh] at hda
      simp at hda
    have hjoin : renameTarget p = dirname p ++ "/" ++ nb := by
      unfold renameTarget posixJoin
      rw [← hnb]
      rw [if_neg hne, if_neg hlast]
    have hdata : (renameTarget p).data = (dirname p).data ++ '/' :: nb.data := by
      rw [hjoin, String.data_append, String.data_append]
      simp
    have hsplit : splitLast '/' (renameTarget p).data
        = some ((dirname p).data, nb.data) := by
      rw [hdata]; exact splitLast_append _ hnbs
    constructor
    · unfold basename; rw [hsplit]
    · obtain ⟨c, a', hda⟩ := hdirn
      have hdr : dirname (renameTarget p) = ⟨c :: a'⟩ := by
        unfold dirname
        rw [hsplit, hda]
      rw [hdr, ← hda]

/-! ### The claims -/

/-- Claim C1: for every import declaration that resolves to a renamed
standard index file with parent directory name `parentName`, the rewrite
removes a trailing `/index` (6 characters) and appends `/parentName`, and
appends `/parentName` to every other such specifier unchanged. -/
theorem claim_C1 (st : EngineState) (referrers : List String) (filePath : String)
    (i j : Nat) (sf : SourceFile) (imp : ImportDecl)
    (hstd : isStandardIndexFile (basename filePath) = true)
    (hi : st.files[i]? = some sf)
    (href : referrers.contains sf.path = true)
    (hj : sf.imports[j]? = some imp)
    (hres : imp.resolvesTo = some filePath) :
    ∃ sf', (processIndexFile st referrers filePath).files[i]? = some sf' ∧
      sf'.path = sf.path ∧
      sf'.imports[j]? = some { imp with
        specifier := rewriteSpec (basename (dirname filePath)) imp.specifier } ∧
      (∀ b : String, imp.specifier = b ++ "/index" →
        rewriteSpec (basename (dirname filePath)) imp.specifier
          = b ++ "/" ++ basename (dirname filePath)) ∧
      (strEndsWith imp.specifier "/index" = false →
        rewriteSpec (basename (dirname filePath)) imp.specifier
          = imp.specifier ++ "/" ++ basename (dirname filePath)) := by
  have hfiles : (processIndexFile st referrers filePath).files =
      updateReferrers st.files referrers filePath (basename (dirname filePath)) := by
    simp [processIndexFile, hstd]
  refine ⟨{ sf with imports :=
      sf.imports.map (rewriteImport filePath (basename (dirname filePath))) },
    ?_, rfl, ?_, ?_, ?_⟩
  · rw [hfiles]
    unfold updateReferrers
    rw [List.getElem?_map, hi]
    have hmem : sf.path ∈ referrers := by simpa using href
    simp [hmem]
  · rw [List.getElem?_map, hj]
    simp [rewriteImport, hres]
  · intro b hb
    unfold rewriteSpec
    rw [hb]
    have hend : strEndsWith (b ++ "/index") "/index" = true := by
      rw [strEndsWith_iff, String.data_append]
      exact List.suffix_append _ _
    rw [if_pos hend]
    have htake : strTake (b ++ "/index") (strLength (b ++ "/index") - 6) = b := by
      unfold strTake strLength
      apply String.ext
      rw [String.data_append]
      show (b.data ++ ("/index" : String).data).take
        ((b.data ++ ("/index" : String).data).length - 6) = b.data
      rw [List.length_append]
      exact List.take_left' (by simp)
    rw [htake]
  · intro hne
    unfold rewriteSpec
    rw [if_neg (by simp [hne])]

/-- Witness for C1 on a concrete one-import project. -/
theorem claim_C1_witness :
    ∃ sf', (processIndexFile
        ⟨["/src/components/Button/index.ts", "/src/App.ts"],
          [⟨"/src/App.ts",
            [⟨"./components/Button", some "/src/components/Button/index.ts"⟩]⟩]⟩
        ["/src/App.ts"] "/src/components/Button/index.ts").files[0]? = some sf' ∧
      sf'.path = "/src/App.ts" ∧
      sf'.imports[0]? = some
        ⟨rewriteSpec (basename (dirname "/src/components/Button/index.ts"))
            "./components/Button",
          some "/src/components/Button/index.ts"⟩ ∧
      (∀ b : String, "./components/Button" = b ++ "/index" →
        rewriteSpec (basename (dirname "/src/components/Button/index.ts"))
          "./components/Button"
          = b ++ "/" ++ basename (dirname "/src/components/Button/index.ts")) ∧
      (strEndsWith "./components/Button" "/index" = false →
        rewriteSpec (basename (dirname "/src/components/Button/index.ts"))
          "./components/Button"
          = "./components/Button" ++ "/"
            ++ basename (dirname "/src/components/Button/index.ts")) :=
  claim_C1
    ⟨["/src/components/Button/index.ts", "/src/App.ts"],
      [⟨"/src/App.ts",
        [⟨"./components/Button", some "/src/components/Button/index.ts"⟩]⟩]⟩
    ["/src/App.ts"] "/src/components/Button/index.ts" 0 0
    ⟨"/src/App.ts",
      [⟨"./components/Button", some "/src/components/Button/index.ts"⟩]⟩
    ⟨"./components/Button", some "/src/components/Button/index.ts"⟩
    (by decide) rfl (by decide) rfl rfl

/-- Claim C2: an import declaration that does not resolve to the index
file being processed keeps its position, its file, and its exact
specifier through the referrer-rewrite step, regardless of the referrer
list. -/
theorem claim_C2 (st : EngineState) (referrers : List String) (filePath : String)
    (i j : Nat) (sf : SourceFile) (imp : ImportDecl)
    (hnull : filePath ≠ "null")
    (hi : st.files[i]? = some sf)
    (hj : sf.imports[j]? = some imp)
    (hres : imp.resolvesTo ≠ some filePath) :
    ∃ sf', (processIndexFile st referrers filePath).files[i]? = some sf' ∧
      sf'.path = sf.path ∧ sf'.imports[j]? = some imp := by
  have himp : rewriteImport filePath (basename (dirname filePath)) imp = imp := by
    unfold rewriteImport
    rw [if_neg ?hguard]
    case hguard =>
      cases hr : imp.resolvesTo with
      | none =>
        intro hh
        exact hnull (by simpa using hh.symm)
      | some q =>
        intro hh
        apply hres
        rw [hr]
        simpa using hh
  by_cases hstd : isStandardIndexFile (basename filePath) = true
  · have hfiles : (processIndexFile st referrers filePath).files =
        updateReferrers st.files referrers filePath (basename (dirname filePath)) := by
      simp [processIndexFile, hstd]
    by_cases hcont : referrers.contains sf.path = true
    · refine ⟨{ sf with imports :=
          sf.imports.map (rewriteImport filePath (basename (dirname filePath))) },
        ?_, rfl, ?_⟩
      · rw [hfiles]
        unfold updateReferrers
        rw [List.getElem?_map, hi]
        have hmem : sf.path ∈ referrers := by simpa using hcont
        simp [hmem]
      · rw [List.getElem?_map, hj]
        simp [himp]
    · refine ⟨sf, ?_, rfl, hj⟩
      rw [hfiles]
      unfold updateReferrers
      rw [List.getElem?_map, hi]
      have hmem : sf.path ∉ referrers := by simpa using hcont
      simp [hmem]
  · have hfiles : (processIndexFile st referrers filePath).files = st.files := by
      simp [processIndexFile, hstd]
    exact ⟨sf, by rw [hfiles]; exact hi, rfl, hj⟩

/-- Witness for C2: an import whose specifier coincidentally ends with
the parent name but resolves elsewhere is untouched. -/
theorem claim_C2_witness :
    ∃ sf', (processIndexFile
        ⟨["/src/components/Button/index.ts", "/src/App.ts"],
          [⟨"/src/App.ts",
            [⟨"./other/Button", some "/src/other/Button.ts"⟩]⟩]⟩
        ["/src/App.ts"] "/src/components/Button/index.ts").files[0]? = some sf' ∧
      sf'.path = "/src/App.ts" ∧
      sf'.imports[0]? = some ⟨"./other/Button", some "/src/other/Button.ts"⟩ :=
  claim_C2
    ⟨["/src/components/Button/index.ts", "/src/App.ts"],
      [⟨"/src/App.ts", [⟨"./other/Button", some "/src/other/Button.ts"⟩]⟩]⟩
    ["/src/App.ts"] "/src/components/Button/index.ts" 0 0
    ⟨"/src/App.ts", [⟨"./other/Button", some "/src/other/Button.ts"⟩]⟩
    ⟨"./other/Button", some "/src/other/Button.ts"⟩
    (by decide) rfl rfl (by decide)

/-- Claim C3: a loaded source file is selected exactly when its
normalized path contains the normalized target folder path as a
substring and its base name starts with `index.`; with target `src` any
path containing `src` anywhere qualifies. -/
theorem claim_C3 (target : String) (paths : List String) (p : String) :
    (p ∈ indexFiles target paths ↔
      p ∈ paths ∧ strContains (normalizePath p) (normalizePath target) = true ∧
        strStartsWith (basename (normalizePath p)) "index." = true) ∧
    (p ∈ paths → strContains (normalizePath p) "src" = true →
      strStartsWith (basename (normalizePath p)) "index." = true →
      p ∈ indexFiles "src" paths) := by
  have hmain : ∀ t : String, p ∈ indexFiles t paths ↔
      p ∈ paths ∧ strContains (normalizePath p) (normalizePath t) = true ∧
        strStartsWith (basename (normalizePath p)) "index." = true := by
    intro t
    unfold indexFiles isIndexFileSelected
    rw [List.mem_filter]
    simp [Bool.and_eq_true]
  refine ⟨hmain target, ?_⟩
  intro hp hc hs
  refine (hmain "src").mpr ⟨hp, ?_, hs⟩
  have hsrc : normalizePath "src" = "src" := rfl
  rw [hsrc]
  exact hc

/-- Witness for C3: `src` as a bare substring (not a path segment)
selects the file. -/
theorem claim_C3_witness :
    "/proj/mysrcy/index.ts" ∈ indexFiles "src" ["/proj/mysrcy/index.ts"] :=
  (claim_C3 "src" ["/proj/mysrcy/index.ts"] "/proj/mysrcy/index.ts").2
    (by decide) (by decide) (by decide)

/-- Claim C4: the new name is computed by classifying the base name
against the pattern regex first, then the simple regex, the new base name
being the parent name plus the matched suffix, and the file stays in its
original directory. -/
theorem claim_C4 (p : String)
    (h1 : strStartsWith p "/" = true)
    (h2 : dirname p = "/" ∨ (dirname p).data.getLast? ≠ some '/') :
    (∀ g1 g2 : String, patternMatch (basename p) = some (g1, g2) →
      basename (renameTarget p) = basename (dirname p) ++ (g1 ++ g2)) ∧
    (patternMatch (basename p) = none →
      ∀ e : String, simpleMatch (basename p) = some e →
        basename (renameTarget p) = basename (dirname p) ++ e) ∧
    dirname (renameTarget p) = dirname p := by
  obtain ⟨hb, hd⟩ := renameTarget_split p h1 h2
  refine ⟨?_, ?_, hd⟩
  · intro g1 g2 hpm
    have he : deriveExtension (basename p) = g1 ++ g2 := by
      unfold deriveExtension
      rw [hpm]
    rw [hb, he]
  · intro hpm e hsm
    have he : deriveExtension (basename p) = e := by
      unfold deriveExtension
      rw [hpm, hsm]
    rw [hb, he]

/-- Witness for C4 on a pattern index file. -/
theorem claim_C4_witness :
    basename (renameTarget "/src/components/Button/index.test.ts")
      = "Button.test.ts" ∧
    dirname (renameTarget "/src/components/Button/index.test.ts")
      = "/src/components/Button" := by
  have h := claim_C4 "/src/components/Button/index.test.ts" (by decide)
    (Or.inr (by decide))
  exact ⟨(h.1 ".test." "ts" (by decide)).trans (by decide),
    h.2.2.trans (by decide)⟩

/-- Claim C5: the referrer rewrite runs exactly for base names
`index.ts`, `index.tsx`, `index.js`, `index.jsx`; a pattern index file is
renamed on disk but no import specifier anywhere changes. -/
theorem claim_C5 (st : EngineState) (referrers : List String) (filePath : String)
    (hpat : (patternMatch (basename filePath)).isSome = true)
    (hmem : filePath ∈ st.fsPaths) :
    isStandardIndexFile (basename filePath) = false ∧
    (processIndexFile st referrers filePath).files = st.files ∧
    renameTarget filePath ∈ (processIndexFile st referrers filePath).fsPaths ∧
    ∀ fn : String, isStandardIndexFile fn = true ↔
      (fn = "index.ts" ∨ fn = "index.tsx" ∨ fn = "index.js" ∨ fn = "index.jsx") := by
  have hchar : ∀ fn : String, isStandardIndexFile fn = true ↔
      (fn = "index.ts" ∨ fn = "index.tsx" ∨ fn = "index.js" ∨ fn = "index.jsx") := by
    intro fn
    unfold isStandardIndexFile
    simp [or_assoc]
  have hstd : isStandardIndexFile (basename filePath) = false := by
    by_contra hb
    rw [Bool.not_eq_false] at hb
    rcases (hchar _).mp hb with h | h | h | h <;>
      (rw [h] at hpat; exact absurd hpat (by decide))
  refine ⟨hstd, ?_, ?_, hchar⟩
  · simp [processIndexFile, hstd]
  · show renameTarget filePath ∈ renameFs st.fsPaths filePath _
    unfold renameFs
    apply List.mem_map.mpr
    refine ⟨filePath, hmem, ?_⟩
    rw [if_pos rfl]
    rfl

/-- Witness for C5 on a concrete pattern index file. -/
theorem claim_C5_witness :
    isStandardIndexFile (basename "/src/components/Button/index.test.ts") = false ∧
    (processIndexFile ⟨["/src/components/Button/index.test.ts"], []⟩ []
        "/src/components/Button/index.test.ts").files = [] ∧
    renameTarget "/src/components/Button/index.test.ts" ∈
      (processIndexFile ⟨["/src/components/Button/index.test.ts"], []⟩ []
        "/src/components/Button/index.test.ts").fsPaths := by
  have h := claim_C5 ⟨["/src/components/Button/index.test.ts"], []⟩ []
    "/src/components/Button/index.test.ts" (by decide) (by decide)
  exact ⟨h.1, h.2.1, h.2.2.1⟩

/-- Claim C6: the resolution-based rewrite of `src/rename-index-files.ts`
and the text-suffix rewrite of `src/unnamed/part_000` are not equivalent:
on a project whose single import coincidentally ends with the parent name
but resolves to a different file, the textual variant edits the specifier
while the resolution-based variant leaves the project unchanged. -/
theorem claim_C6 :
    updateAllTextual
        [⟨"/proj/src/App.ts",
          [⟨"./other/Button", some "/proj/src/other/Button.ts"⟩]⟩] "Button"
      = [⟨"/proj/src/App.ts",
          [⟨"./other/Button/Button", some "/proj/src/other/Button.ts"⟩]⟩] ∧
    updateReferrers
        [⟨"/proj/src/App.ts",
          [⟨"./other/Button", some "/proj/src/other/Button.ts"⟩]⟩]
        ["/proj/src/App.ts"] "/proj/src/components/Button/index.ts" "Button"
      = [⟨"/proj/src/App.ts",
          [⟨"./other/Button", some "/proj/src/other/Button.ts"⟩]⟩] ∧
    updateAllTextual
        [⟨"/proj/src/App.ts",
          [⟨"./other/Button", some "/proj/src/other/Button.ts"⟩]⟩] "Button"
      ≠ updateReferrers
        [⟨"/proj/src/App.ts",
          [⟨"./other/Button", some "/proj/src/other/Button.ts"⟩]⟩]
        ["/proj/src/App.ts"] "/proj/src/components/Button/index.ts" "Button" := by
  refine ⟨by decide, by decide, by decide⟩

/-- Claim C7, counterexample: renaming `/proj/src/index/index.ts` (parent
directory named `index`) yields base name `index.ts` again, which still
satisfies the selection predicate, so a second run selects it. -/
theorem claim_C7_counterexample :
    strStartsWith (basename (renameTarget "/proj/src/index/index.ts"))
      "index." = true ∧
    isIndexFileSelected "src" (renameTarget "/proj/src/index/index.ts") = true := by
  refine ⟨by decide, by decide⟩

/-- Claim C7 as amended: for every renamed index file whose parent
directory name is neither exactly `index` nor itself starts with
`index.`, the new base name does not start with `index.`, so a second run
does not select the renamed file, whatever the target folder. -/
theorem claim_C7 (p : String)
    (h1 : strStartsWith p "/" = true)
    (h2 : dirname p = "/" ∨ (dirname p).data.getLast? ≠ some '/')
    (h3 : '\\' ∉ p.data)
    (h4 : basename (dirname p) ≠ "index")
    (h5 : strStartsWith (basename (dirname p)) "index." = false) :
    strStartsWith (basename (renameTarget p)) "index." = false ∧
    ∀ target : String, isIndexFileSelected target (renameTarget p) = false := by
  obtain ⟨hb, -⟩ := renameTarget_split p h1 h2
  obtain ⟨t, ht⟩ := deriveExtension_head (basename p)
  have hsw : strStartsWith (basename (renameTarget p)) "index." = false := by
    rw [hb]
    exact not_startsWith_index_dot ht h4 h5
  refine ⟨hsw, ?_⟩
  intro target
  have hnb : '\\' ∉ (renameTarget p).data := by
    intro hmem
    rcases mem_renameTarget hmem with hc | hc | hc
    · exact h3 hc
    · exact absurd hc (by decide)
    · exact absurd hc (by decide)
  have hsel : isIndexFileSelected target (renameTarget p) =
      (strContains (normalizePath (renameTarget p)) (normalizePath target) &&
        strStartsWith (basename (normalizePath (renameTarget p))) "index.") := rfl
  rw [hsel, normalizePath_eq_self hnb, hsw, Bool.and_false]

/-- Witness for the amended C7 on a concrete standard index file. -/
theorem claim_C7_witness :
    strStartsWith
      (basename (renameTarget "/proj/src/components/Button/index.ts"))
      "index." = false ∧
    isIndexFileSelected "src"
      (renameTarget "/proj/src/components/Button/index.ts") = false := by
  have h := claim_C7 "/proj/src/components/Button/index.ts" (by decide)
    (Or.inr (by decide)) (by decide) (by decide) (by decide)
  exact ⟨h.1, h.2 "src"⟩

/-- Claim C8: a missing configuration path or target folder makes the run
fail before any work, with the specific error message, a failure result,
and no resulting state. -/
theorem claim_C8 (fsExists : String → Bool) (tsConfigPath targetFolderPath : String)
    (referrersOf : String → List String) (st : EngineState) :
    (fsExists tsConfigPath = false →
      runTool fsExists tsConfigPath targetFolderPath referrersOf st =
        Except.error ("Error: tsconfig file not found at path: " ++ tsConfigPath)) ∧
    (fsExists tsConfigPath = true → fsExists targetFolderPath = false →
      runTool fsExists tsConfigPath targetFolderPath referrersOf st =
        Except.error ("Error: target folder not found at path: " ++ targetFolderPath)) ∧
    ((fsExists tsConfigPath = false ∨ fsExists targetFolderPath = false) →
      ∀ st' : EngineState,
        runTool fsExists tsConfigPath targetFolderPath referrersOf st ≠
          Except.ok st') := by
  refine ⟨?_, ?_, ?_⟩
  · intro h
    simp [runTool, h]
  · intro h1 h2
    simp [runTool, h1, h2]
  · intro h st'
    rcases h with h | h
    · simp [runTool, h]
    · cases hts : fsExists tsConfigPath with
      | false => simp [runTool, hts]
      | true => simp [runTool, hts, h]

/-- Witness for C8 with an always-absent filesystem. -/
theorem claim_C8_witness :
    runTool (fun _ => false) "tsconfig.json" "src" (fun _ => []) ⟨[], []⟩ =
      Except.error ("Error: tsconfig file not found at path: " ++ "tsconfig.json") :=
  (claim_C8 (fun _ => false) "tsconfig.json" "src" (fun _ => []) ⟨[], []⟩).1 rfl

/-- Claim C9: a selected base name matching neither regex falls back to
the fixed default extension `.tsx`, so the new base name is the parent
name followed by `.tsx`. -/
theorem claim_C9 (fileName : String)
    (h0 : strStartsWith fileName "index." = true)
    (h1 : patternMatch fileName = none)
    (h2 : simpleMatch fileName = none) :
    deriveExtension fileName = ".tsx" ∧
    ∀ parentName : String,
      parentName ++ deriveExtension fileName = parentName ++ ".tsx" := by
  have hd : deriveExtension fileName = ".tsx" := by
    unfold deriveExtension
    rw [h1, h2]
  exact ⟨hd, fun pn => by rw [hd]⟩

/-- Witness for C9 at the base name `index.`. -/
theorem claim_C9_witness :
    strStartsWith "index." "index." = true ∧ patternMatch "index." = none ∧
      simpleMatch "index." = none ∧ deriveExtension "index." = ".tsx" :=
  ⟨by decide, by decide, by decide,
    (claim_C9 "index." (by decide) (by decide) (by decide)).1⟩

/-- Claim C10: the specifier rewrite is not idempotent — for a specifier
not ending in `/index` and a parent directory not named `index`, a second
application appends the parent name again, yielding a different string. -/
theorem claim_C10 (dir s : String)
    (h1 : strEndsWith s "/index" = false)
    (h2 : basename dir ≠ "index") :
    rewriteSpec (basename dir) (rewriteSpec (basename dir) s)
      = s ++ "/" ++ basename dir ++ "/" ++ basename dir ∧
    rewriteSpec (basename dir) (rewriteSpec (basename dir) s)
      ≠ rewriteSpec (basename dir) s := by
  have hfirst : rewriteSpec (basename dir) s = s ++ "/" ++ basename dir := by
    unfold rewriteSpec
    rw [if_neg (by simp [h1])]
  have hend : strEndsWith (s ++ "/" ++ basename dir) "/index" = false :=
    not_endsWith_slash_index (basename_no_slash dir) h2
  have hsecond : rewriteSpec (basename dir) (rewriteSpec (basename dir) s)
      = s ++ "/" ++ basename dir ++ "/" ++ basename dir := by
    rw [hfirst]
    unfold rewriteSpec
    rw [if_neg (by simp [hend])]
  refine ⟨hsecond, ?_⟩
  rw [hsecond, hfirst]
  intro hh
  have hlen := congrArg (fun t : String => t.data.length) hh
  have hone : ("/" : String).data.length = 1 := rfl
  simp only [String.data_append, List.length_append, hone] at hlen
  omega

/-- Witness for C10 on the Button example. -/
theorem claim_C10_witness :
    rewriteSpec (basename "/src/components/Button")
        (rewriteSpec (basename "/src/components/Button") "./components/Button")
      = "./components/Button" ++ "/" ++ basename "/src/components/Button"
        ++ "/" ++ basename "/src/components/Button" :=
  (claim_C10 "/src/components/Button" "./components/Button"
    (by decide) (by decide)).1

end RenameIndexFiles
